import Mathlib

/-!
# LogStream: a shallow embedding of the core in Lean 4

This file embeds the three core components of the LogStream repository
(`internal/storage` MemoryStore, `internal/alerting` AlertManager,
`internal/ingestion` Ingestor) as executable Lean definitions, and proves
the specification claims about them.

Modelling conventions:
* A Go `time.Time` is an `Int` counting nanoseconds since the Unix epoch.
  Go stores a time as whole seconds plus a nanosecond offset in `[0, 1e9)`,
  so `Time.Unix()` is the floor division of the nanosecond count by `1e9`
  (`Int.fdiv`).  Go's integer `/` truncates toward zero, which is `Int.tdiv`.
* A Go `time.Duration` is an `Int` in nanoseconds; `time.Minute = 60e9`.
* Go strings are modelled as Lean `String`s; byte-level indexing is
  represented through the character list `String.data`.
* Channels are modelled as bounded FIFO queues (`List` plus a capacity);
  a non-blocking send appends when below capacity and is a no-op otherwise.
* Calls to `time.Now()` within one method invocation are modelled by a
  single explicit `now` parameter of that method.
* Goroutine scheduling itself is not modelled; each exported method is
  embedded as the sequential state transformation it performs under the
  component's lock, which is how the spec's functional claims read.
-/

namespace LogStream

/-- Nanoseconds per second (Go `time.Second`). -/
def nanosPerSecond : Int := 1000000000

/-- Go `time.Minute` as a Duration in nanoseconds. -/
def minuteNs : Int := 60 * nanosPerSecond

/-- Go `Time.Unix()`: whole seconds since the epoch.  Go represents a time
as seconds plus a nanosecond offset in `[0, 1e9)`, so this is the floor
division of the nanosecond count. -/
def unixSec (t : Int) : Int := Int.fdiv t nanosPerSecond

/-- The minute bucket of a time, as computed by the store:
`entry.Timestamp.Unix() / 60` with Go's truncated integer division. -/
def timeBucketOf (t : Int) : Int := Int.tdiv (unixSec t) 60

/-- Modelled from the spec: `pkg/models.LogEntry` (the `pkg/models` package
is not part of the provided sources).  Per the spec's data model it carries
an identifier, a timestamp, a level drawn from a fixed string enumeration,
a message, a service label and an optional string-keyed metadata map. -/
structure LogEntry where
  id : String
  timestamp : Int
  level : String
  message : String
  service : String
  metadata : List (String × String)
deriving DecidableEq, Repr

/- ===================== internal/storage: MemoryStore ===================== -/

/-- `storage.MemoryStore`: the log sequence, the two derived indices and the
configured capacity.  The Go maps `map[string][]int` and `map[int64][]int`
are modelled as total functions defaulting to the empty list, which is
exactly the behaviour of appending to a missing Go map key. -/
structure MemoryStore where
  logs : List LogEntry
  indexByLevel : String → List Nat
  timeBuckets : Int → List Nat
  maxLogs : Nat

/-- `storage.NewMemoryStore`. -/
def NewMemoryStore (maxLogs : Nat) : MemoryStore :=
  { logs := []
    indexByLevel := fun _ => []
    timeBuckets := fun _ => []
    maxLogs := maxLogs }

/-- One step of the index-rebuilding loop of `rebuildIndices`, generic in the
key: append the position `idx` to the bucket of key `k`. -/
def appendIndex {κ : Type} [DecidableEq κ] (m : κ → List Nat) (k : κ) (idx : Nat) :
    κ → List Nat :=
  fun k2 => if k2 = k then m k2 ++ [idx] else m k2

/-- The loop body of `storage.rebuildIndices`: walk the surviving logs with
their positions, appending each position to the level bucket and to the
minute bucket of its entry. -/
def rebuildLoop : List LogEntry → Nat → (String → List Nat) → (Int → List Nat) →
    (String → List Nat) × (Int → List Nat)
  | [], _, lvl, tb => (lvl, tb)
  | log :: rest, idx, lvl, tb =>
      rebuildLoop rest (idx + 1)
        (appendIndex lvl log.level idx)
        (appendIndex tb (timeBucketOf log.timestamp) idx)

/-- `storage.MemoryStore.rebuildIndices`: reconstruct both indices from
scratch over the current log sequence. -/
def MemoryStore.rebuildIndices (ms : MemoryStore) : MemoryStore :=
  let r := rebuildLoop ms.logs 0 (fun _ => []) (fun _ => [])
  { ms with indexByLevel := r.1, timeBuckets := r.2 }

/-- `storage.MemoryStore.evictOldest`: drop the oldest `maxLogs / 5`
entries (20% of capacity) and rebuild the indices. -/
def MemoryStore.evictOldest (ms : MemoryStore) : MemoryStore :=
  let evictCount := ms.maxLogs / 5
  MemoryStore.rebuildIndices { ms with logs := ms.logs.drop evictCount }

/-- `storage.MemoryStore.Store`: append the entry, index its position by
level and by minute bucket, then evict if the sequence now exceeds the
configured maximum. -/
def MemoryStore.Store (ms : MemoryStore) (entry : LogEntry) : MemoryStore :=
  let idx := ms.logs.length
  let ms2 : MemoryStore :=
    { ms with
      logs := ms.logs ++ [entry]
      indexByLevel := appendIndex ms.indexByLevel entry.level idx
      timeBuckets := appendIndex ms.timeBuckets (timeBucketOf entry.timestamp) idx }
  if ms2.logs.length > ms2.maxLogs then ms2.evictOldest else ms2

/-- Fold `Store` over a whole input sequence (the arrival order of a run of
`Store` calls). -/
def MemoryStore.StoreAll (ms : MemoryStore) (entries : List LogEntry) : MemoryStore :=
  entries.foldl MemoryStore.Store ms

/-- `storage.MemoryStore.Count`. -/
def MemoryStore.Count (ms : MemoryStore) : Nat := ms.logs.length

/-- `storage.MemoryStore.GetByLevel`: walk the level index, skipping any
position that is out of the current sequence bounds. -/
def MemoryStore.GetByLevel (ms : MemoryStore) (level : String) : List LogEntry :=
  (ms.indexByLevel level).filterMap fun idx =>
    if h : idx < ms.logs.length then some (ms.logs.get ⟨idx, h⟩) else none

/-- The ascending run of bucket keys visited by the `GetByTimeRange` loop:
`startBucket, startBucket+1, ..., endBucket` (empty when the end bucket is
below the start bucket). -/
def bucketRun (startBucket endBucket : Int) : List Int :=
  (List.range (endBucket + 1 - startBucket).toNat).map fun i => startBucket + Int.ofNat i

/-- `storage.MemoryStore.GetByTimeRange`: iterate the minute buckets from
`bucket(start)` to `bucket(endT)` in ascending order; within each bucket,
walk the indexed positions in arrival order, skip stale out-of-bounds
positions, and keep entries with `start ≤ t ≤ endT`
(Go: `!t.Before(start) && !t.After(end)`). -/
def MemoryStore.GetByTimeRange (ms : MemoryStore) (start endT : Int) : List LogEntry :=
  let startBucket := Int.tdiv (unixSec start) 60
  let endBucket := Int.tdiv (unixSec endT) 60
  (bucketRun startBucket endBucket).flatMap fun bucket =>
    (ms.timeBuckets bucket).filterMap fun idx =>
      if h : idx < ms.logs.length then
        let log := ms.logs.get ⟨idx, h⟩
        if start ≤ log.timestamp ∧ log.timestamp ≤ endT then some log else none
      else none

/-- `storage.MemoryStore.GetRecent`: `logs[start:]` with
`start = max (len - n) 0`.  Returns `none` exactly when the Go slice
expression would panic, which happens when the clamped lower bound still
exceeds the sequence length (possible only for negative `n`). -/
def MemoryStore.GetRecent (ms : MemoryStore) (n : Int) : Option (List LogEntry) :=
  let start : Int := (ms.logs.length : Int) - n
  let start := if start < 0 then 0 else start
  if start ≤ (ms.logs.length : Int) then some (ms.logs.drop start.toNat) else none

/- ===================== internal/alerting: AlertManager ===================== -/

/-- `alerting.AlertRule`.  `Threshold` is a Go `int`; `Window` is a
`time.Duration` in nanoseconds. -/
structure AlertRule where
  name : String
  level : String
  threshold : Int
  window : Int
  pattern : String
deriving DecidableEq, Repr

/-- `alerting.Alert`. -/
structure Alert where
  ruleName : String
  message : String
  count : Int
  timestamp : Int
deriving DecidableEq, Repr

/-- `alerting.logEntry`: the lightweight summary kept in the rolling
window. -/
structure WindowEntry where
  timestamp : Int
  level : String
  message : String
deriving DecidableEq, Repr

/-- `alerting.AlertManager` state: the rule set, the bounded alert channel
(capacity 100, modelled as a FIFO list) and the rolling window. -/
structure AlertManager where
  rules : List AlertRule
  alertChannel : List Alert
  recentLogs : List WindowEntry

/-- Capacity of the alert channel created by `NewAlertManager`. -/
def alertChannelCapacity : Nat := 100

/-- `alerting.NewAlertManager` (the callback is consumed by the background
loop, which performs no state change we model). -/
def NewAlertManager : AlertManager :=
  { rules := [], alertChannel := [], recentLogs := [] }

/-- `alerting.AlertManager.AddRule`. -/
def AlertManager.AddRule (am : AlertManager) (rule : AlertRule) : AlertManager :=
  { am with rules := am.rules ++ [rule] }

/-- `alerting.contains`: Go's byte-level scan
`for i := 0; i <= len(s)-len(substr); i++ { if s[i:i+len(substr)] == substr }`
succeeds exactly when `substr` occurs contiguously inside `s`, i.e. is an
infix of the character sequence. -/
def containsStr (s substr : String) : Bool :=
  decide (substr.data <:+: s.data)

/-- `alerting.containsPattern`:
`len(pattern) == 0 || len(message) >= len(pattern) && contains(message, pattern)`
(Go `&&` binds tighter than `||`). -/
def containsPattern (message pattern : String) : Bool :=
  pattern.length == 0 || (decide (pattern.length ≤ message.length) && containsStr message pattern)

/-- The per-entry test of the counting loop in `shouldTriggerAlert`: the
entry lies strictly after `now - rule.Window` (Go
`log.timestamp.After(windowStart)`), its level equals the rule's level, and
the rule's pattern is empty or occurs in the message.  Note the loop places
no upper bound on the timestamp. -/
def windowMatch (rule : AlertRule) (now : Int) (log : WindowEntry) : Bool :=
  decide (now - rule.window < log.timestamp) &&
  log.level == rule.level &&
  (rule.pattern == "" || containsPattern log.message rule.pattern)

/-- `alerting.AlertManager.shouldTriggerAlert`: count the window entries
passing `windowMatch` and compare against the threshold. -/
def shouldTriggerAlert (recentLogs : List WindowEntry) (rule : AlertRule) (now : Int) : Bool :=
  decide (rule.threshold ≤ (recentLogs.countP (windowMatch rule now) : Int))

/-- Rendering of Go's `%d` for the threshold within the alert message. -/
def intRender (i : Int) : String := toString i

/-- Modelled from the spec: the rendering Go's `%v` verb applies to the
`time.Duration` window inside the alert message (`time.Duration.String` is
part of the Go standard library, not of the provided sources); it is
embedded as an executable rendering of the nanosecond count. -/
def durationRender (d : Int) : String := toString d ++ "ns"

/-- The alert message built by `ProcessLog`:
`fmt.Sprintf("Alert: %s triggered! %d %s logs in last %v", rule.Name,
rule.Threshold, rule.Level, rule.Window)`. -/
def renderAlertMessage (rule : AlertRule) : String :=
  "Alert: " ++ rule.name ++ " triggered! " ++ intRender rule.threshold ++ " " ++
    rule.level ++ " logs in last " ++ durationRender rule.window

/-- The `Alert` value constructed by `ProcessLog` for a triggered rule: its
`Count` field is the rule's threshold and its timestamp is the current
time. -/
def mkAlert (rule : AlertRule) (now : Int) : Alert :=
  { ruleName := rule.name
    message := renderAlertMessage rule
    count := rule.threshold
    timestamp := now }

/-- Non-blocking send into the bounded alert channel: append if below
capacity, otherwise drop (Go `select` with a `default` branch). -/
def trySend (ch : List Alert) (a : Alert) : List Alert :=
  if ch.length < alertChannelCapacity then ch ++ [a] else ch

/-- `alerting.AlertManager.getMaxWindow`: the running maximum of the rule
windows, started at `time.Minute`. -/
def AlertManager.getMaxWindow (am : AlertManager) : Int :=
  am.rules.foldl (fun mx rule => if rule.window > mx then rule.window else mx) minuteNs

/-- `alerting.AlertManager.cleanOldLogs`: keep exactly the entries with
`timestamp.After(cutoff)`, in order. -/
def cleanOldLogs (logs : List WindowEntry) (cutoff : Int) : List WindowEntry :=
  logs.filter fun log => decide (cutoff < log.timestamp)

/-- One iteration of the rule loop of `ProcessLog`: if the rule triggers on
the pruned window, construct its alert and attempt a non-blocking send.
The accumulator pairs the channel contents with a ghost record of the
alerts that entered the channel during this call. -/
def ruleStep (recent : List WindowEntry) (now : Int) (acc : List Alert × List Alert)
    (rule : AlertRule) : List Alert × List Alert :=
  if shouldTriggerAlert recent rule now then
    let alert := mkAlert rule now
    if acc.1.length < alertChannelCapacity then (acc.1 ++ [alert], acc.2 ++ [alert])
    else (acc.1, acc.2)
  else acc

/-- The rule loop of `ProcessLog`: run `ruleStep` over every rule in
order. -/
def ruleLoop (recent : List WindowEntry) (now : Int) (rules : List AlertRule)
    (channel : List Alert) : List Alert × List Alert :=
  rules.foldl (ruleStep recent now) (channel, [])

/-- `alerting.AlertManager.ProcessLog`: append the entry's summary to the
rolling window, prune entries at or before `now - getMaxWindow()`, then run
every rule, sending an alert for each rule whose count meets its threshold.
Returns the new state together with the list of alerts emitted into the
channel by this call. -/
def AlertManager.ProcessLog (am : AlertManager) (log : LogEntry) (now : Int) :
    AlertManager × List Alert :=
  let recent := am.recentLogs ++
    [{ timestamp := log.timestamp, level := log.level, message := log.message }]
  let cutoff := now - am.getMaxWindow
  let recent := cleanOldLogs recent cutoff
  let r := ruleLoop recent now am.rules am.alertChannel
  ({ am with recentLogs := recent, alertChannel := r.1 }, r.2)

/- ===================== internal/ingestion: Ingestor ===================== -/

/-- `ingestion.Ingestor`: the bounded log channel (modelled as a FIFO list
with its capacity), the worker count and the two stats counters.  The
references to the store and the alert manager, and the worker goroutines
that drain the queue, are not part of this sequential state. -/
structure Ingestor where
  logChannel : List LogEntry
  bufferSize : Nat
  workerCount : Nat
  totalProcessed : Nat
  totalDropped : Nat

/-- `ingestion.NewIngestor`: builds the ingestor unconditionally; no
configuration validation is performed. -/
def NewIngestor (workerCount bufferSize : Nat) : Ingestor :=
  { logChannel := []
    bufferSize := bufferSize
    workerCount := workerCount
    totalProcessed := 0
    totalDropped := 0 }

/-- `ingestion.Ingestor.Ingest`: non-blocking enqueue; on a full channel
the entry is dropped and `TotalDropped` is incremented. -/
def Ingestor.Ingest (ing : Ingestor) (entry : LogEntry) : Ingestor × Bool :=
  if ing.logChannel.length < ing.bufferSize then
    ({ ing with logChannel := ing.logChannel ++ [entry] }, true)
  else
    ({ ing with totalDropped := ing.totalDropped + 1 }, false)

/- ===================== shared test fixtures ===================== -/

/-- A simple entry whose timestamp is `i` seconds after the epoch. -/
def natEntry (i : Nat) : LogEntry :=
  { id := "", timestamp := (i : Int) * nanosPerSecond, level := "INFO",
    message := "", service := "", metadata := [] }

/-- The arrival sequence `natEntry 0, …, natEntry (n-1)`. -/
def seqEntries (n : Nat) : List LogEntry := (List.range n).map natEntry

/- ===================== store lemmas ===================== -/

theorem rebuildIndices_logs (ms : MemoryStore) : ms.rebuildIndices.logs = ms.logs := rfl

theorem rebuildIndices_maxLogs (ms : MemoryStore) :
    ms.rebuildIndices.maxLogs = ms.maxLogs := rfl

theorem Store_maxLogs (ms : MemoryStore) (e : LogEntry) :
    (ms.Store e).maxLogs = ms.maxLogs := by
  unfold MemoryStore.Store MemoryStore.evictOldest MemoryStore.rebuildIndices
  dsimp only
  split <;> rfl

theorem Store_logs_no_evict (ms : MemoryStore) (e : LogEntry)
    (h : ms.logs.length < ms.maxLogs) : (ms.Store e).logs = ms.logs ++ [e] := by
  unfold MemoryStore.Store
  dsimp only
  rw [if_neg]
  simp only [List.length_append, List.length_singleton]
  omega

theorem Store_logs_evict (ms : MemoryStore) (e : LogEntry)
    (h : ms.maxLogs ≤ ms.logs.length) :
    (ms.Store e).logs = (ms.logs ++ [e]).drop (ms.maxLogs / 5) := by
  unfold MemoryStore.Store MemoryStore.evictOldest
  dsimp only
  rw [if_pos]
  · rfl
  · simp only [List.length_append, List.length_singleton]
    omega

theorem StoreAll_append (ms : MemoryStore) (l1 l2 : List LogEntry) :
    ms.StoreAll (l1 ++ l2) = (ms.StoreAll l1).StoreAll l2 :=
  List.foldl_append _ _ _ _

theorem StoreAll_maxLogs (l : List LogEntry) (ms : MemoryStore) :
    (ms.StoreAll l).maxLogs = ms.maxLogs := by
  induction l generalizing ms with
  | nil => rfl
  | cons e rest ih =>
      show ((ms.Store e).StoreAll rest).maxLogs = ms.maxLogs
      rw [ih, Store_maxLogs]

/-- While the sequence still fits within capacity, `Store` is plain append. -/
theorem StoreAll_logs_fits (l : List LogEntry) (ms : MemoryStore)
    (h : ms.logs.length + l.length ≤ ms.maxLogs) :
    (ms.StoreAll l).logs = ms.logs ++ l := by
  induction l generalizing ms with
  | nil => simp [MemoryStore.StoreAll]
  | cons e rest ih =>
      show ((ms.Store e).StoreAll rest).logs = ms.logs ++ e :: rest
      have hlt : ms.logs.length < ms.maxLogs := by
        simp only [List.length_cons] at h; omega
      have hrest : (ms.Store e).logs.length + rest.length ≤ (ms.Store e).maxLogs := by
        rw [Store_maxLogs, Store_logs_no_evict ms e hlt]
        simp only [List.length_append, List.length_singleton, List.length_cons,
          List.length_nil] at h ⊢
        omega
      rw [ih _ hrest, Store_logs_no_evict ms e hlt]
      simp

/-- Storing `max + 1` entries into a fresh store of capacity `max`: the
first `max` appends fit, and the final append triggers one eviction of the
oldest `max / 5` entries. -/
theorem StoreAll_overflow (max : Nat) (l : List LogEntry) (h : l.length = max + 1) :
    ((NewMemoryStore max).StoreAll l).logs = l.drop (max / 5) := by
  have hsplit : l = l.take max ++ l.drop max := (List.take_append_drop max l).symm
  have hlen_drop : (l.drop max).length = 1 := by
    rw [List.length_drop, h]; omega
  obtain ⟨e, he⟩ := List.length_eq_one.mp hlen_drop
  have htake : (l.take max).length = max := by
    rw [List.length_take, h]; omega
  have hfit : ((NewMemoryStore max).StoreAll (l.take max)).logs = l.take max := by
    have := StoreAll_logs_fits (l.take max) (NewMemoryStore max)
      (by simp [NewMemoryStore, htake])
    simpa [NewMemoryStore] using this
  have hmax : ((NewMemoryStore max).StoreAll (l.take max)).maxLogs = max := by
    rw [StoreAll_maxLogs]; rfl
  calc ((NewMemoryStore max).StoreAll l).logs
      = (((NewMemoryStore max).StoreAll (l.take max)).StoreAll [e]).logs := by
        conv_lhs => rw [hsplit, he]
        rw [StoreAll_append]
    _ = ((((NewMemoryStore max).StoreAll (l.take max)).Store e)).logs := rfl
    _ = (l.take max ++ [e]).drop (max / 5) := by
        rw [Store_logs_evict _ _ (by rw [hmax, hfit, htake]), hmax, hfit]
    _ = l.drop (max / 5) := by
        conv_rhs => rw [hsplit, he]

/-- One `Store` call preserves the capacity bound whenever the capacity is
at least 5 (so that the 20% eviction removes at least one entry). -/
theorem Store_count_le (ms : MemoryStore) (e : LogEntry) (h5 : 5 ≤ ms.maxLogs)
    (hlen : ms.logs.length ≤ ms.maxLogs) :
    (ms.Store e).logs.length ≤ ms.maxLogs := by
  rcases Nat.lt_or_ge ms.logs.length ms.maxLogs with hlt | hge
  · rw [Store_logs_no_evict ms e hlt]
    simp only [List.length_append, List.length_singleton]
    omega
  · rw [Store_logs_evict ms e hge]
    simp only [List.length_drop, List.length_append, List.length_singleton]
    have : 1 ≤ ms.maxLogs / 5 := by omega
    omega

theorem StoreAll_count_le (l : List LogEntry) (ms : MemoryStore)
    (h5 : 5 ≤ ms.maxLogs) (hlen : ms.logs.length ≤ ms.maxLogs) :
    (ms.StoreAll l).logs.length ≤ ms.maxLogs := by
  induction l generalizing ms with
  | nil => exact hlen
  | cons e rest ih =>
      show ((ms.Store e).StoreAll rest).logs.length ≤ ms.maxLogs
      have h5' : 5 ≤ (ms.Store e).maxLogs := by rw [Store_maxLogs]; exact h5
      have hlen' : (ms.Store e).logs.length ≤ (ms.Store e).maxLogs := by
        rw [Store_maxLogs]; exact Store_count_le ms e h5 hlen
      have := ih (ms.Store e) h5' hlen'
      rwa [Store_maxLogs] at this

/- ===================== claims C1, C2, C5, C10 ===================== -/

/-- C1 (amended): after inserting capacity+1 entries into a fresh store with
capacity 100000, the eviction triggered by the (capacity+1)-th `Store` call
drops the oldest `capacity/5 = 20000` entries, so `Count()` equals 80001
(not 80000), the surviving entries are exactly the most recent 80001
inserted entries in arrival order, and `Count()` is at most the capacity. -/
theorem c1_capacity_plus_one_eviction (l : List LogEntry) (h : l.length = 100001) :
    ((NewMemoryStore 100000).StoreAll l).Count = 80001 ∧
    ((NewMemoryStore 100000).StoreAll l).logs = l.drop 20000 ∧
    ((NewMemoryStore 100000).StoreAll l).Count ≤ 100000 := by
  have hlogs := StoreAll_overflow 100000 l h
  have h5 : (100000 : Nat) / 5 = 20000 := by norm_num
  rw [h5] at hlogs
  refine ⟨?_, hlogs, ?_⟩ <;>
    simp [MemoryStore.Count, hlogs, List.length_drop, h]

/-- C1 counterexample: the claim as stated says `Count()` equals 80000 after
100001 insertions at capacity 100000; on the code it equals 80001 (the code
appends first and evicts `100000/5 = 20000`, leaving `100001 - 20000`). -/
theorem c1_count_is_not_80000 :
    ((NewMemoryStore 100000).StoreAll (seqEntries 100001)).Count ≠ 80000 := by
  have h : (seqEntries 100001).length = 100001 := by
    simp [seqEntries]
  have hlogs := StoreAll_overflow 100000 (seqEntries 100001) h
  simp only [MemoryStore.Count, hlogs, List.length_drop, h]
  norm_num

/-- C1 witness: the amended theorem applied to a concrete arrival sequence
of 100001 entries. -/
theorem c1_capacity_plus_one_eviction_witness :
    (seqEntries 100001).length = 100001 ∧
    ((NewMemoryStore 100000).StoreAll (seqEntries 100001)).Count = 80001 :=
  ⟨by simp [seqEntries],
   (c1_capacity_plus_one_eviction (seqEntries 100001) (by simp [seqEntries])).1⟩

/-- C2 (amended): for every configured maximum capacity of at least 5 (so
that the 20% eviction `maxLogs/5` removes at least one entry) and every
sequence of `Store` calls, `Count()` is at most the configured maximum
after every `Store` call returns.  For capacities 1..4 the eviction count
`maxLogs/5` is zero and the bound is violated. -/
theorem c2_capacity_invariant (max : Nat) (h : 5 ≤ max) (l : List LogEntry) :
    ((NewMemoryStore max).StoreAll l).Count ≤ max := by
  have := StoreAll_count_le l (NewMemoryStore max) h (by simp [NewMemoryStore])
  simpa [MemoryStore.Count, NewMemoryStore] using this

/-- C2 counterexample: with configured maximum 4, after five `Store` calls
the store holds 5 entries — the eviction count `4/5 = 0` removes nothing,
so the claimed bound fails for this capacity. -/
theorem c2_small_capacity_violated :
    ¬ ((NewMemoryStore 4).StoreAll (seqEntries 5)).Count ≤ 4 := by decide

/-- C2 witness: the amended invariant at capacity 5 with six insertions
(one eviction). -/
theorem c2_capacity_invariant_witness :
    5 ≤ 5 ∧ ((NewMemoryStore 5).StoreAll (seqEntries 6)).Count ≤ 5 :=
  ⟨by decide, c2_capacity_invariant 5 (by decide) (seqEntries 6)⟩

/-- C5 (confirmed): for every sequence of N entries inserted via `Store`
with N at most the configured capacity, `Count()` returns N and
`GetRecent(N)` returns exactly the N inserted entries in insertion
order. -/
theorem c5_count_getRecent_under_capacity (max : Nat) (l : List LogEntry)
    (h : l.length ≤ max) :
    ((NewMemoryStore max).StoreAll l).Count = l.length ∧
    ((NewMemoryStore max).StoreAll l).GetRecent (l.length : Int) = some l := by
  have hlogs : ((NewMemoryStore max).StoreAll l).logs = l := by
    have := StoreAll_logs_fits l (NewMemoryStore max) (by simpa [NewMemoryStore] using h)
    simpa [NewMemoryStore] using this
  refine ⟨by simp [MemoryStore.Count, hlogs], ?_⟩
  unfold MemoryStore.GetRecent
  simp [hlogs]

/-- C5 witness: three-slot store, two insertions. -/
theorem c5_count_getRecent_under_capacity_witness :
    ((NewMemoryStore 3).StoreAll (seqEntries 2)).Count = 2 ∧
    ((NewMemoryStore 3).StoreAll (seqEntries 2)).GetRecent 2 = some (seqEntries 2) := by
  have h := c5_count_getRecent_under_capacity 3 (seqEntries 2) (by decide)
  have hl : (seqEntries 2).length = 2 := by decide
  constructor
  · rw [h.1, hl]
  · have h2 := h.2
    rw [hl] at h2
    exact_mod_cast h2

/-- C10 (confirmed): `GetRecent(n)` is total exactly for `n ≥ 0`: it then
returns the last `min(n, length)` entries in order; for `n < 0` the clamped
slice lower bound `length - n` exceeds the sequence length and the Go slice
expression panics (modelled as `none`). -/
theorem c10_getRecent_negative_panics (ms : MemoryStore) (n : Int) :
    (0 ≤ n →
      ms.GetRecent n = some (ms.logs.drop (ms.logs.length - n.toNat)) ∧
      (ms.logs.drop (ms.logs.length - n.toNat)).length = min n.toNat ms.logs.length) ∧
    (n < 0 → ms.GetRecent n = none) := by
  unfold MemoryStore.GetRecent
  dsimp only
  constructor
  · intro hn
    constructor
    · split_ifs with h1 h2 h3
      · have h0 : ms.logs.length - n.toNat = 0 := by omega
        rw [h0]
        simp
      · exact absurd (by omega : (0 : Int) ≤ (ms.logs.length : Int)) h2
      · have ht : ((ms.logs.length : Int) - n).toNat = ms.logs.length - n.toNat := by
          omega
        rw [ht]
      · exact absurd (by omega : (ms.logs.length : Int) - n ≤ (ms.logs.length : Int)) h3
    · rw [List.length_drop]
      omega
  · intro hn
    split_ifs with h1 h2 h3
    · exact absurd h1 (by omega)
    · exact absurd h1 (by omega)
    · exact absurd h3 (by omega)
    · rfl

/-- C10 witness: a concrete three-entry store where `GetRecent(-1)`
panics. -/
theorem c10_getRecent_negative_panics_witness :
    ((NewMemoryStore 10).StoreAll (seqEntries 3)).GetRecent (-1) = none :=
  (c10_getRecent_negative_panics _ (-1)).2 (by decide)

/- ===================== claims C7, C8 ===================== -/

/-- C7 (confirmed): `Ingest` never blocks: it returns success exactly when
the bounded queue has free space, in which case the entry is appended and
the dropped counter is unchanged; on a full queue the entry is discarded,
the dropped counter is incremented by exactly one, and the call reports
failure.  The queue length never exceeds the configured buffer size. -/
theorem c7_ingest_drop_on_full (ing : Ingestor) (e : LogEntry) :
    ((ing.Ingest e).2 = true ↔ ing.logChannel.length < ing.bufferSize) ∧
    ((ing.Ingest e).2 = true →
      (ing.Ingest e).1.logChannel = ing.logChannel ++ [e] ∧
      (ing.Ingest e).1.totalDropped = ing.totalDropped) ∧
    ((ing.Ingest e).2 = false →
      (ing.Ingest e).1.logChannel = ing.logChannel ∧
      (ing.Ingest e).1.totalDropped = ing.totalDropped + 1) ∧
    (ing.logChannel.length ≤ ing.bufferSize →
      (ing.Ingest e).1.logChannel.length ≤ ing.bufferSize) := by
  unfold Ingestor.Ingest
  split_ifs with h
  · refine ⟨by simpa using h, fun _ => ⟨rfl, rfl⟩, by simp, fun _ => ?_⟩
    simp only [List.length_append, List.length_singleton]
    omega
  · refine ⟨by simpa using h, by simp, fun _ => ⟨rfl, rfl⟩, fun hle => hle⟩

/-- C7 witness: a queue of capacity 1 accepts one entry without touching the
dropped counter, and drops the second, incrementing it to exactly one. -/
theorem c7_ingest_drop_on_full_witness :
    (((NewIngestor 20 1).Ingest (natEntry 0)).1.totalDropped = 0) ∧
    ((((NewIngestor 20 1).Ingest (natEntry 0)).1.Ingest (natEntry 1)).2 = false) ∧
    ((((NewIngestor 20 1).Ingest (natEntry 0)).1.Ingest (natEntry 1)).1.totalDropped = 1) := by
  have h1 := c7_ingest_drop_on_full (NewIngestor 20 1) (natEntry 0)
  have h2 := c7_ingest_drop_on_full ((NewIngestor 20 1).Ingest (natEntry 0)).1 (natEntry 1)
  refine ⟨?_, ?_, ?_⟩
  · exact (h1.2.1 (by decide)).2
  · decide
  · have := (h2.2.2.1 (by decide)).2
    rw [this]
    exact congrArg (· + 1) ((h1.2.1 (by decide)).2)

/-- C8: the constructors perform no validation; supplying a zero worker
count or a zero store capacity still produces a fully usable instance
(`Ingest` succeeds on the fresh ingestor, `Store` succeeds on the fresh
store — and even leaves the zero-capacity store holding one entry). -/
theorem c8_constructors_accept_invalid_config :
    (NewIngestor 0 10000).workerCount = 0 ∧
    ((NewIngestor 0 10000).Ingest (natEntry 0)).2 = true ∧
    (NewMemoryStore 0).maxLogs = 0 ∧
    ((NewMemoryStore 0).Store (natEntry 0)).Count = 1 := by
  refine ⟨rfl, ?_, rfl, by decide⟩
  unfold Ingestor.Ingest
  rw [if_pos]
  decide

/- ===================== alerting lemmas ===================== -/

/-- Every alert the rule loop emits originates as `mkAlert rule now` for
some rule of the list (or was already in the ghost accumulator). -/
theorem ruleLoop_foldl_mem (recent : List WindowEntry) (now : Int) :
    ∀ (rules : List AlertRule) (acc : List Alert × List Alert) (a : Alert),
      a ∈ (rules.foldl (ruleStep recent now) acc).2 →
      a ∈ acc.2 ∨ ∃ rule ∈ rules, a = mkAlert rule now := by
  intro rules
  induction rules with
  | nil =>
      intro acc a h
      exact Or.inl h
  | cons r rest ih =>
      intro acc a h
      rw [List.foldl_cons] at h
      rcases ih (ruleStep recent now acc r) a h with hm | ⟨rule, hr, he⟩
      · unfold ruleStep at hm
        split_ifs at hm with h1 h2
        · dsimp only at hm
          rcases List.mem_append.mp hm with hm2 | hm2
          · exact Or.inl hm2
          · exact Or.inr ⟨r, List.mem_cons_self r rest, by simpa using hm2⟩
        · exact Or.inl hm
        · exact Or.inl hm
      · exact Or.inr ⟨rule, List.mem_cons_of_mem r hr, he⟩

/-- When the channel has room for every rule, no alert is dropped: the
emitted list is exactly one `mkAlert` per triggered rule, in rule order. -/
theorem ruleLoop_foldl_no_drop (recent : List WindowEntry) (now : Int) :
    ∀ (rules : List AlertRule) (ch em : List Alert),
      ch.length + rules.length ≤ alertChannelCapacity →
      (rules.foldl (ruleStep recent now) (ch, em)).2 =
        em ++ (rules.filter fun r => shouldTriggerAlert recent r now).map
          (fun r => mkAlert r now) := by
  intro rules
  induction rules with
  | nil =>
      intro ch em _
      simp
  | cons r rest ih =>
      intro ch em h
      rw [List.foldl_cons]
      by_cases ht : shouldTriggerAlert recent r now
      · have hroom : ch.length < alertChannelCapacity := by
          simp only [List.length_cons] at h
          omega
        have hstep : ruleStep recent now (ch, em) r =
            (ch ++ [mkAlert r now], em ++ [mkAlert r now]) := by
          unfold ruleStep
          rw [if_pos ht, if_pos hroom]
        rw [hstep, ih (ch ++ [mkAlert r now]) (em ++ [mkAlert r now]) (by
          simp only [List.length_append, List.length_singleton, List.length_cons,
            List.length_nil] at h ⊢
          omega)]
        simp [List.filter_cons, ht]
      · have hstep : ruleStep recent now (ch, em) r = (ch, em) := by
          unfold ruleStep
          rw [if_neg ht]
        rw [hstep, ih ch em (by
          simp only [List.length_cons] at h
          omega)]
        simp [List.filter_cons, ht]

/-- `getMaxWindow` is the fold of `max` over the rule windows, seeded with
one minute. -/
theorem getMaxWindow_eq_foldl_max (am : AlertManager) :
    am.getMaxWindow = am.rules.foldl (fun mx rule => max mx rule.window) minuteNs := by
  unfold AlertManager.getMaxWindow
  congr 1
  funext mx rule
  rcases le_or_lt rule.window mx with h | h
  · rw [if_neg (by omega), max_eq_left h]
  · rw [if_pos h, max_eq_right (le_of_lt h)]

theorem foldl_max_init_le (l : List AlertRule) :
    ∀ m : Int, m ≤ l.foldl (fun mx rule => max mx rule.window) m := by
  induction l with
  | nil => intro m; exact le_refl m
  | cons r rest ih =>
      intro m
      rw [List.foldl_cons]
      exact le_trans (le_max_left m r.window) (ih (max m r.window))

theorem foldl_max_mem_le (l : List AlertRule) :
    ∀ (m : Int) (r : AlertRule), r ∈ l →
      r.window ≤ l.foldl (fun mx rule => max mx rule.window) m := by
  induction l with
  | nil => intro m r hr; exact absurd hr (List.not_mem_nil r)
  | cons x rest ih =>
      intro m r hr
      rw [List.foldl_cons]
      rcases List.mem_cons.mp hr with he | hm
      · subst he
        exact le_trans (le_max_right m r.window) (foldl_max_init_le rest _)
      · exact ih (max m x.window) r hm

theorem foldl_max_attained (l : List AlertRule) :
    ∀ m : Int, l.foldl (fun mx rule => max mx rule.window) m = m ∨
      ∃ r ∈ l, l.foldl (fun mx rule => max mx rule.window) m = r.window := by
  induction l with
  | nil => intro m; exact Or.inl rfl
  | cons x rest ih =>
      intro m
      rw [List.foldl_cons]
      rcases ih (max m x.window) with h | ⟨r, hr, he⟩
      · rcases max_choice m x.window with hm | hm
        · exact Or.inl (h.trans hm)
        · exact Or.inr ⟨x, List.mem_cons_self x rest, h.trans hm⟩
      · exact Or.inr ⟨r, List.mem_cons_of_mem x hr, he⟩

/-- The threshold rendered by `%d` occurs verbatim inside the alert
message built by `ProcessLog`. -/
theorem threshold_in_message (rule : AlertRule) :
    (intRender rule.threshold).data <:+: (renderAlertMessage rule).data := by
  refine ⟨("Alert: " ++ rule.name ++ " triggered! ").data,
    (" " ++ rule.level ++ " logs in last " ++ durationRender rule.window).data, ?_⟩
  simp [renderAlertMessage]

/- ===================== alerting fixtures ===================== -/

/-- The example rule from the spec: level ERROR, threshold 3, window 30s. -/
def ruleErr3 : AlertRule :=
  { name := "High Error Rate", level := "ERROR", threshold := 3,
    window := 30 * nanosPerSecond, pattern := "" }

/-- A single-occurrence variant used for boundary scenarios. -/
def ruleErr1 : AlertRule :=
  { name := "Any Error", level := "ERROR", threshold := 1,
    window := 30 * nanosPerSecond, pattern := "" }

/-- An ERROR entry timestamped `sec` seconds after the epoch. -/
def errEntry (sec : Int) : LogEntry :=
  { id := "", timestamp := sec * nanosPerSecond, level := "ERROR",
    message := "boom", service := "", metadata := [] }

/-- A fresh manager configured with the spec's example rule. -/
def amErr3 : AlertManager :=
  { rules := [ruleErr3], alertChannel := [], recentLogs := [] }

/-- A fresh manager configured with the single-occurrence rule. -/
def amErr1 : AlertManager :=
  { rules := [ruleErr1], alertChannel := [], recentLogs := [] }

/-- Manager state after processing the first example ERROR entry. -/
def amErr3After1 : AlertManager :=
  (amErr3.ProcessLog (errEntry 1000) (1000 * nanosPerSecond)).1

/-- Manager state after processing the second example ERROR entry. -/
def amErr3After2 : AlertManager :=
  (amErr3After1.ProcessLog (errEntry 1010) (1010 * nanosPerSecond)).1

/-- The matching count exactly as claim C3 words it: level equality,
pattern match, and a timestamp in the closed interval
`[now - rule.window, now]`.  This definition follows the claim's words, to
be compared against the count the code computes. -/
def claimClosedWindowCount (recent : List WindowEntry) (rule : AlertRule) (now : Int) : Nat :=
  recent.countP fun l =>
    decide (now - rule.window ≤ l.timestamp) && decide (l.timestamp ≤ now) &&
    (l.level == rule.level) && (rule.pattern == "" || containsPattern l.message rule.pattern)

/- ===================== claims C3, C4, C9 ===================== -/

/-- C3 (amended): on each `ProcessLog` call, for every configured rule the
evaluator counts exactly the window entries whose level equals the rule's
level, whose message matches the rule's pattern (empty pattern matches
everything), and whose timestamp is strictly greater than
`now - rule.window` — the left endpoint is excluded and there is no upper
bound, so entries timestamped after `now` are counted; provided the alert
channel has room, an alert is emitted for a rule if and only if this count
is at least the rule's threshold.  The spec's example still holds: with
rule {ERROR, threshold 3, window 30s} and three ERROR entries spread over a
30s span, processing the third entry emits exactly one alert and
processing the first two emits none. -/
theorem c3_strict_open_window_alerting (am : AlertManager) (log : LogEntry) (now : Int)
    (hroom : am.alertChannel.length + am.rules.length ≤ alertChannelCapacity) :
    ((am.ProcessLog log now).2 =
      ((am.rules.filter fun rule =>
          shouldTriggerAlert (am.ProcessLog log now).1.recentLogs rule now).map
        fun rule => mkAlert rule now)) ∧
    (∀ rule recent, shouldTriggerAlert recent rule now = true ↔
      rule.threshold ≤ (recent.countP (windowMatch rule now) : Int)) ∧
    (amErr3.ProcessLog (errEntry 1000) (1000 * nanosPerSecond)).2 = [] ∧
    (amErr3After1.ProcessLog (errEntry 1010) (1010 * nanosPerSecond)).2 = [] ∧
    (amErr3After2.ProcessLog (errEntry 1020) (1020 * nanosPerSecond)).2 =
      [mkAlert ruleErr3 (1020 * nanosPerSecond)] := by
  refine ⟨?_, ?_, by decide, by decide, by decide⟩
  · unfold AlertManager.ProcessLog
    dsimp only
    unfold ruleLoop
    exact ruleLoop_foldl_no_drop _ now am.rules am.alertChannel [] hroom
  · intro rule recent
    unfold shouldTriggerAlert
    exact decide_eq_true_iff

/-- C3 counterexample: with rule {ERROR, threshold 1, window 30s} and one
ERROR entry timestamped exactly `now - 30s`, the claim's closed-interval
count is 1 ≥ threshold, yet the code emits no alert (its window test is
strict); and with one ERROR entry timestamped 100s after `now`, the
claim's count is 0 < threshold, yet the code emits an alert. -/
theorem c3_closed_interval_refuted :
    (claimClosedWindowCount
        (amErr1.ProcessLog (errEntry 970) (1000 * nanosPerSecond)).1.recentLogs
        ruleErr1 (1000 * nanosPerSecond) = 1 ∧
      ruleErr1.threshold ≤ (1 : Int) ∧
      (amErr1.ProcessLog (errEntry 970) (1000 * nanosPerSecond)).2 = []) ∧
    (claimClosedWindowCount
        (amErr1.ProcessLog (errEntry 1100) (1000 * nanosPerSecond)).1.recentLogs
        ruleErr1 (1000 * nanosPerSecond) = 0 ∧
      (amErr1.ProcessLog (errEntry 1100) (1000 * nanosPerSecond)).2 =
        [mkAlert ruleErr1 (1000 * nanosPerSecond)]) := by
  exact ⟨⟨by decide, by decide, by decide⟩, ⟨by decide, rfl⟩⟩

/-- C3 witness: the amended theorem applied to the spec's example manager,
with the channel-capacity hypothesis discharged concretely. -/
theorem c3_strict_open_window_alerting_witness :
    (amErr3.ProcessLog (errEntry 1000) (1000 * nanosPerSecond)).2 = [] := by
  have h := (c3_strict_open_window_alerting amErr3 (errEntry 1000)
    (1000 * nanosPerSecond) (by decide)).1
  rw [h]
  decide

/-- C4 (amended): on each `ProcessLog` call the rolling window is pruned so
that exactly the entries with timestamps at or before
`now - getMaxWindow()` are removed, where `getMaxWindow()` is the maximum
of one minute and the widest configured rule window: the one-minute floor
applies always — also when rules are configured — so with rules whose
windows are all shorter than one minute the retention horizon is one
minute, not the widest rule window. -/
theorem c4_prune_horizon_floored (am : AlertManager) (log : LogEntry) (now : Int) :
    ((am.ProcessLog log now).1.recentLogs =
      (am.recentLogs ++ [(⟨log.timestamp, log.level, log.message⟩ : WindowEntry)]).filter
        fun l => decide (now - am.getMaxWindow < l.timestamp)) ∧
    minuteNs ≤ am.getMaxWindow ∧
    (∀ rule ∈ am.rules, rule.window ≤ am.getMaxWindow) ∧
    (am.getMaxWindow = minuteNs ∨ ∃ rule ∈ am.rules, am.getMaxWindow = rule.window) := by
  refine ⟨rfl, ?_, ?_, ?_⟩
  · rw [getMaxWindow_eq_foldl_max]
    exact foldl_max_init_le am.rules minuteNs
  · intro rule hr
    rw [getMaxWindow_eq_foldl_max]
    exact foldl_max_mem_le am.rules minuteNs rule hr
  · rw [getMaxWindow_eq_foldl_max]
    exact foldl_max_attained am.rules minuteNs

/-- C4 counterexample: with exactly one configured rule of window 30s, the
retention horizon is one minute, not the rule's window, and a window entry
45s old — older than `now - 30s`, which the claim says must be removed —
survives the pruning. -/
theorem c4_short_rule_window_not_horizon :
    amErr1.getMaxWindow ≠ ruleErr1.window ∧
    (⟨955 * nanosPerSecond, "ERROR", "x"⟩ : WindowEntry) ∈
      (({ rules := [ruleErr1], alertChannel := [],
          recentLogs := [⟨955 * nanosPerSecond, "ERROR", "x"⟩] } : AlertManager).ProcessLog
        (errEntry 1000) (1000 * nanosPerSecond)).1.recentLogs := by
  refine ⟨by decide, by decide⟩

/-- C4 witness: the amended theorem applied to the concrete one-rule
manager (trivially, its statement has no hypothesis beyond the manager, so
this instantiates it and reads off the floored horizon). -/
theorem c4_prune_horizon_floored_witness :
    minuteNs ≤ amErr1.getMaxWindow :=
  (c4_prune_horizon_floored amErr1 (errEntry 1000) (1000 * nanosPerSecond)).2.1

/-- C9 (confirmed): every alert emitted by `ProcessLog` carries `Count`
equal to its rule's configured threshold — not the number of window
entries that actually matched — and its rendered message embeds that
threshold verbatim. -/
theorem c9_alert_count_is_threshold (am : AlertManager) (log : LogEntry) (now : Int)
    (a : Alert) (ha : a ∈ (am.ProcessLog log now).2) :
    ∃ rule ∈ am.rules, a.count = rule.threshold ∧ a.message = renderAlertMessage rule ∧
      (intRender rule.threshold).data <:+: a.message.data := by
  unfold AlertManager.ProcessLog at ha
  dsimp only at ha
  unfold ruleLoop at ha
  rcases ruleLoop_foldl_mem _ now am.rules (am.alertChannel, []) a ha with h0 | ⟨rule, hr, he⟩
  · exact absurd h0 (List.not_mem_nil a)
  · subst he
    exact ⟨rule, hr, rfl, rfl, threshold_in_message rule⟩

/-- A one-rule manager whose window already holds one matching ERROR
summary (so the next matching entry makes two matches against a
threshold-1 rule). -/
def amErr1Pre : AlertManager :=
  { rules := [ruleErr1], alertChannel := [],
    recentLogs := [⟨995 * nanosPerSecond, "ERROR", "boom"⟩] }

/-- C9 witness: a rule with threshold 1 and a window holding two matching
entries still reports `Count = 1`; the emitted alert's fields follow from
the theorem applied at this concrete call. -/
theorem c9_alert_count_is_threshold_witness :
    ∃ rule ∈ amErr1Pre.rules,
      (mkAlert ruleErr1 (1000 * nanosPerSecond)).count = rule.threshold ∧
      (mkAlert ruleErr1 (1000 * nanosPerSecond)).message = renderAlertMessage rule ∧
      (intRender rule.threshold).data <:+:
        (mkAlert ruleErr1 (1000 * nanosPerSecond)).message.data := by
  have hmem : mkAlert ruleErr1 (1000 * nanosPerSecond) ∈
      (amErr1Pre.ProcessLog (errEntry 1000) (1000 * nanosPerSecond)).2 := by
    rw [show (amErr1Pre.ProcessLog (errEntry 1000) (1000 * nanosPerSecond)).2 =
      [mkAlert ruleErr1 (1000 * nanosPerSecond)] from rfl]
    exact List.mem_singleton.mpr rfl
  exact c9_alert_count_is_threshold amErr1Pre (errEntry 1000) (1000 * nanosPerSecond) _ hmem

/- ===================== time-index lemmas for C6 ===================== -/

/-- Go's truncated division by a positive divisor is monotone in the
dividend. -/
theorem tdiv_mono_of_pos {a b c : Int} (hc : 0 < c) (h : a ≤ b) :
    a.tdiv c ≤ b.tdiv c := by
  rcases le_or_lt 0 a with ha | ha
  · have hb : 0 ≤ b := le_trans ha h
    rw [Int.tdiv_eq_ediv ha (le_of_lt hc), Int.tdiv_eq_ediv hb (le_of_lt hc)]
    exact Int.ediv_le_ediv hc h
  · rcases le_or_lt 0 b with hb | hb
    · have h1 : a.tdiv c ≤ 0 := by
        have e1 : a.tdiv c = -((-a).tdiv c) := by
          rw [← Int.neg_tdiv, neg_neg]
        rw [e1]
        exact neg_nonpos_of_nonneg (Int.tdiv_nonneg (by omega) (le_of_lt hc))
      exact le_trans h1 (Int.tdiv_nonneg hb (le_of_lt hc))
    · have hstep : (-b).tdiv c ≤ (-a).tdiv c := by
        rw [Int.tdiv_eq_ediv (by omega) (le_of_lt hc),
          Int.tdiv_eq_ediv (by omega : (0:Int) ≤ -a) (le_of_lt hc)]
        exact Int.ediv_le_ediv hc (by omega)
      have e1 : a.tdiv c = -((-a).tdiv c) := by rw [← Int.neg_tdiv, neg_neg]
      have e2 : b.tdiv c = -((-b).tdiv c) := by rw [← Int.neg_tdiv, neg_neg]
      omega

/-- Minute buckets respect the order of timestamps. -/
theorem timeBucketOf_mono {s t : Int} (h : s ≤ t) : timeBucketOf s ≤ timeBucketOf t := by
  unfold timeBucketOf
  apply tdiv_mono_of_pos (by norm_num)
  unfold unixSec
  rw [Int.fdiv_eq_ediv _ (by norm_num [nanosPerSecond]),
    Int.fdiv_eq_ediv _ (by norm_num [nanosPerSecond])]
  exact Int.ediv_le_ediv (by norm_num [nanosPerSecond]) h

/-- Membership in the ascending bucket run is exactly the closed interval
of bucket keys. -/
theorem mem_bucketRun {lo hi b : Int} : b ∈ bucketRun lo hi ↔ lo ≤ b ∧ b ≤ hi := by
  unfold bucketRun
  constructor
  · intro h
    rcases List.mem_map.mp h with ⟨i, hi2, he⟩
    rw [Int.ofNat_eq_natCast] at he
    have h3 : (i : Int) < hi + 1 - lo := Int.lt_toNat.mp (List.mem_range.mp hi2)
    omega
  · rintro ⟨h1, h2⟩
    apply List.mem_map.mpr
    refine ⟨(b - lo).toNat, List.mem_range.mpr (Int.lt_toNat.mpr ?_), ?_⟩
    · rw [Int.toNat_of_nonneg (by omega)]
      omega
    · rw [Int.ofNat_eq_natCast, Int.toNat_of_nonneg (by omega)]
      omega

/-- Walking an index list and fetching each position that is still within
bounds (stale positions are skipped). -/
def retrieve (logs : List LogEntry) (ixs : List Nat) : List LogEntry :=
  ixs.filterMap fun idx => logs[idx]?

/-- The inner loop of `GetByTimeRange` over one bucket's index list is the
bounded retrieval of those positions, filtered by the inclusive timestamp
range. -/
theorem getByTimeRange_inner_eq (logs : List LogEntry) (s e : Int) :
    ∀ ixs : List Nat,
      (ixs.filterMap fun idx =>
        if h : idx < logs.length then
          let log := logs.get ⟨idx, h⟩
          if s ≤ log.timestamp ∧ log.timestamp ≤ e then some log else none
        else none) =
      (retrieve logs ixs).filter fun l =>
        decide (s ≤ l.timestamp) && decide (l.timestamp ≤ e) := by
  intro ixs
  induction ixs with
  | nil => rfl
  | cons i rest ih =>
      unfold retrieve at ih ⊢
      simp only [List.filterMap_cons]
      by_cases h : i < logs.length
      · rw [dif_pos h, List.getElem?_eq_getElem h]
        dsimp only
        by_cases hr : s ≤ (logs.get ⟨i, h⟩).timestamp ∧ (logs.get ⟨i, h⟩).timestamp ≤ e
        · rw [if_pos hr]
          have : logs[i] = logs.get ⟨i, h⟩ := rfl
          rw [this, List.filter_cons, if_pos (by
            simp only [Bool.and_eq_true, decide_eq_true_eq]
            exact ⟨hr.1, hr.2⟩), ih]
        · rw [if_neg hr]
          have : logs[i] = logs.get ⟨i, h⟩ := rfl
          rw [this, List.filter_cons, if_neg (by
            simp only [Bool.and_eq_true, decide_eq_true_eq]
            exact fun hc => hr ⟨hc.1, hc.2⟩), ih]
      · rw [dif_neg h, List.getElem?_eq_none (by omega)]
        exact ih

/-- `GetByTimeRange` in closed form: ascending buckets, bounded retrieval,
inclusive range filter. -/
theorem getByTimeRange_flatMap (ms : MemoryStore) (s e : Int) :
    ms.GetByTimeRange s e =
      (bucketRun (timeBucketOf s) (timeBucketOf e)).flatMap fun b =>
        (retrieve ms.logs (ms.timeBuckets b)).filter fun l =>
          decide (s ≤ l.timestamp) && decide (l.timestamp ≤ e) := by
  unfold MemoryStore.GetByTimeRange
  dsimp only
  congr 1
  funext b
  exact getByTimeRange_inner_eq ms.logs s e (ms.timeBuckets b)

/-- The store's time-index consistency invariant: every indexed position is
within sequence bounds, and retrieving a bucket's positions in order yields
exactly the entries of that minute bucket in arrival order.  It holds for
every store reachable by `Store` calls from `NewMemoryStore`. -/
def timeIndexOk (ms : MemoryStore) : Prop :=
  ∀ b : Int,
    (∀ idx ∈ ms.timeBuckets b, idx < ms.logs.length) ∧
    retrieve ms.logs (ms.timeBuckets b) =
      ms.logs.filter fun l => timeBucketOf l.timestamp == b

theorem timeIndexOk_new (max : Nat) : timeIndexOk (NewMemoryStore max) := by
  intro b
  exact ⟨fun idx h => absurd h (List.not_mem_nil idx), rfl⟩

/-- Bounded retrieval ignores a freshly appended entry as long as every
index stays within the old bounds. -/
theorem retrieve_append_of_lt (logs : List LogEntry) (e : LogEntry) (ixs : List Nat)
    (hb : ∀ idx ∈ ixs, idx < logs.length) :
    retrieve (logs ++ [e]) ixs = retrieve logs ixs := by
  unfold retrieve
  apply List.filterMap_congr
  intro i hi
  rw [List.getElem?_append, if_pos (hb i hi)]

/-- The reference positions of one minute bucket within a log sequence. -/
def bucketPositions (b : Int) : List LogEntry → List Nat
  | [] => []
  | l :: rest =>
      (if timeBucketOf l.timestamp = b then [0] else []) ++
        (bucketPositions b rest).map (· + 1)

theorem bucketPositions_lt (b : Int) :
    ∀ (logs : List LogEntry) (i : Nat), i ∈ bucketPositions b logs → i < logs.length := by
  intro logs
  induction logs with
  | nil =>
      intro i h
      exact absurd h (List.not_mem_nil i)
  | cons l rest ih =>
      intro i h
      unfold bucketPositions at h
      rcases List.mem_append.mp h with h1 | h1
      · split_ifs at h1 with hb
        · rw [List.mem_singleton.mp h1]
          simp
        · exact absurd h1 (List.not_mem_nil i)
      · rcases List.mem_map.mp h1 with ⟨j, hj, rfl⟩
        have := ih j hj
        simp only [List.length_cons]
        omega

theorem bucketPositions_retrieve (b : Int) :
    ∀ logs : List LogEntry,
      retrieve logs (bucketPositions b logs) =
        logs.filter fun l => timeBucketOf l.timestamp == b := by
  intro logs
  induction logs with
  | nil => rfl
  | cons l rest ih =>
      unfold bucketPositions retrieve
      rw [List.filterMap_append, List.filterMap_map]
      have hcomp : ((fun i => (l :: rest)[i]?) ∘ (· + 1)) = fun i : Nat => rest[i]? := by
        funext i
        simp [List.getElem?_cons_succ]
      rw [hcomp]
      unfold retrieve at ih
      rw [ih, List.filter_cons]
      by_cases hb : timeBucketOf l.timestamp = b
      · rw [if_pos hb, if_pos (by simp [hb])]
        simp
      · rw [if_neg hb, if_neg (by simp [hb])]
        simp

theorem bucketPositions_cons (b : Int) (l : LogEntry) (rest : List LogEntry) :
    bucketPositions b (l :: rest) =
      (if timeBucketOf l.timestamp = b then [0] else []) ++
        (bucketPositions b rest).map (· + 1) := rfl

/-- The rebuilding loop extends the accumulated time index by the bucket's
reference positions, shifted by the running offset. -/
theorem rebuildLoop_timeBuckets :
    ∀ (logs : List LogEntry) (idx : Nat) (lvl : String → List Nat)
      (tb : Int → List Nat) (b : Int),
      (rebuildLoop logs idx lvl tb).2 b =
        tb b ++ (bucketPositions b logs).map (· + idx) := by
  intro logs
  induction logs with
  | nil =>
      intro idx lvl tb b
      simp [rebuildLoop, bucketPositions]
  | cons log rest ih =>
      intro idx lvl tb b
      rw [show rebuildLoop (log :: rest) idx lvl tb =
        rebuildLoop rest (idx + 1) (appendIndex lvl log.level idx)
          (appendIndex tb (timeBucketOf log.timestamp) idx) from rfl]
      rw [ih (idx + 1) _ _ b, bucketPositions_cons]
      unfold appendIndex
      by_cases hb : timeBucketOf log.timestamp = b
      · rw [if_pos hb.symm, if_pos hb]
        rw [List.map_append, List.map_map, List.append_assoc]
        congr 1
        congr 1
        · simp
        · congr 1
          funext j
          simp only [Function.comp_apply]
          omega
      · rw [if_neg (fun h => hb h.symm), if_neg hb]
        rw [List.nil_append, List.map_map]
        congr 1
        congr 1
        funext j
        simp only [Function.comp_apply]
        omega

/-- A full index rebuild restores the time-index invariant over whatever
log sequence the store currently holds. -/
theorem timeIndexOk_rebuild (ms : MemoryStore) : timeIndexOk ms.rebuildIndices := by
  intro b
  unfold MemoryStore.rebuildIndices
  dsimp only
  have hshift : ((bucketPositions b ms.logs).map (· + 0)) = bucketPositions b ms.logs := by
    simp
  constructor
  · intro idx hidx
    rw [rebuildLoop_timeBuckets ms.logs 0 _ _ b] at hidx
    simp only [List.nil_append, hshift] at hidx
    exact bucketPositions_lt b ms.logs idx hidx
  · rw [rebuildLoop_timeBuckets ms.logs 0 _ _ b]
    simp only [List.nil_append, hshift]
    exact bucketPositions_retrieve b ms.logs

/-- `Store` preserves the time-index invariant: the appended entry's
position is indexed under its own minute bucket, and an eviction rebuilds
both indices from scratch. -/
theorem timeIndexOk_Store (ms : MemoryStore) (e : LogEntry) (h : timeIndexOk ms) :
    timeIndexOk (ms.Store e) := by
  unfold MemoryStore.Store
  dsimp only
  split_ifs with hlen
  · unfold MemoryStore.evictOldest
    dsimp only
    exact timeIndexOk_rebuild _
  · intro b
    dsimp only
    constructor
    · intro idx hidx
      unfold appendIndex at hidx
      simp only [List.length_append, List.length_singleton]
      by_cases hb : b = timeBucketOf e.timestamp
      · rw [if_pos hb] at hidx
        rcases List.mem_append.mp hidx with h1 | h1
        · have := (h b).1 idx h1
          omega
        · rw [List.mem_singleton.mp h1]
          omega
      · rw [if_neg hb] at hidx
        have := (h b).1 idx hidx
        omega
    · unfold appendIndex
      by_cases hb : b = timeBucketOf e.timestamp
      · rw [if_pos hb]
        have hsplit : retrieve (ms.logs ++ [e]) (ms.timeBuckets b ++ [ms.logs.length]) =
            retrieve (ms.logs ++ [e]) (ms.timeBuckets b) ++
              retrieve (ms.logs ++ [e]) [ms.logs.length] := by
          unfold retrieve
          exact List.filterMap_append _ _ _
        have hlast : retrieve (ms.logs ++ [e]) [ms.logs.length] = [e] := by
          unfold retrieve
          simp [List.getElem?_concat_length]
        rw [hsplit, retrieve_append_of_lt ms.logs e _ (h b).1, (h b).2, hlast,
          List.filter_append]
        congr 1
        simp [hb]
      · rw [if_neg hb]
        rw [retrieve_append_of_lt ms.logs e _ (h b).1, (h b).2, List.filter_append]
        have hf : List.filter (fun l => timeBucketOf l.timestamp == b) [e] = [] := by
          simp only [List.filter_cons, List.filter_nil]
          rw [if_neg]
          simp only [beq_iff_eq]
          exact fun hh => hb hh.symm
        rw [hf, List.append_nil]

/-- Every store reachable by a run of `Store` calls from a fresh store
satisfies the time-index invariant. -/
theorem timeIndexOk_StoreAll (max : Nat) (l : List LogEntry) :
    timeIndexOk ((NewMemoryStore max).StoreAll l) := by
  have hgen : ∀ (l2 : List LogEntry) (ms : MemoryStore),
      timeIndexOk ms → timeIndexOk (ms.StoreAll l2) := by
    intro l2
    induction l2 with
    | nil =>
        intro ms h
        exact h
    | cons e2 rest ih =>
        intro ms h
        exact ih (ms.Store e2) (timeIndexOk_Store ms e2 h)
  exact hgen l _ (timeIndexOk_new max)

/- ===================== claim C6 ===================== -/

/-- C6 (confirmed): on a store whose time index is consistent (as every
store reached by `Store` calls is), `GetByTimeRange(start, end)` returns
exactly the stored entries whose minute bucket lies in
`[bucket(start), bucket(end)]` and whose timestamp `t` satisfies
`start ≤ t ≤ end` inclusive, iterating buckets in ascending order with
entries in arrival order within each bucket; membership is exactly the
inclusive timestamp range (so an entry timestamped precisely at either
endpoint is returned, and one outside the range — a bucket-width or
otherwise — is not). -/
theorem c6_timeRange_inclusive (ms : MemoryStore) (hok : timeIndexOk ms) (s e : Int) :
    (ms.GetByTimeRange s e =
      (bucketRun (timeBucketOf s) (timeBucketOf e)).flatMap fun b =>
        ms.logs.filter fun l =>
          (decide (s ≤ l.timestamp) && decide (l.timestamp ≤ e)) &&
            (timeBucketOf l.timestamp == b)) ∧
    ∀ l, l ∈ ms.GetByTimeRange s e ↔ l ∈ ms.logs ∧ s ≤ l.timestamp ∧ l.timestamp ≤ e := by
  have hshape : ms.GetByTimeRange s e =
      (bucketRun (timeBucketOf s) (timeBucketOf e)).flatMap fun b =>
        ms.logs.filter fun l =>
          (decide (s ≤ l.timestamp) && decide (l.timestamp ≤ e)) &&
            (timeBucketOf l.timestamp == b) := by
    rw [getByTimeRange_flatMap]
    congr 1
    funext b
    rw [(hok b).2, List.filter_filter]
  refine ⟨hshape, ?_⟩
  intro l
  rw [hshape]
  constructor
  · intro hmem
    rcases List.mem_flatMap.mp hmem with ⟨b, _, hl⟩
    rcases List.mem_filter.mp hl with ⟨hin, hcond⟩
    simp only [Bool.and_eq_true, decide_eq_true_eq] at hcond
    exact ⟨hin, hcond.1.1, hcond.1.2⟩
  · rintro ⟨hin, h1, h2⟩
    apply List.mem_flatMap.mpr
    refine ⟨timeBucketOf l.timestamp, ?_, ?_⟩
    · exact mem_bucketRun.mpr ⟨timeBucketOf_mono h1, timeBucketOf_mono h2⟩
    · exact List.mem_filter.mpr ⟨hin, by simp [h1, h2]⟩

/-- A concrete store holding entries at 0s, 60s, 120s and 180s (different
minute buckets). -/
def msTime : MemoryStore :=
  (NewMemoryStore 10).StoreAll [natEntry 0, natEntry 60, natEntry 120, natEntry 180]

/-- C6 witness: the theorem applied to a concrete store and a concrete
inclusive range `[60s, 120s]`, whose left endpoint is the timestamp of the
retrieved entry. -/
theorem c6_timeRange_inclusive_witness :
    natEntry 60 ∈ msTime.GetByTimeRange (60 * nanosPerSecond) (120 * nanosPerSecond) := by
  have h := (c6_timeRange_inclusive msTime (timeIndexOk_StoreAll 10 _)
    (60 * nanosPerSecond) (120 * nanosPerSecond)).2 (natEntry 60)
  exact h.mpr ⟨by decide, by decide, by decide⟩

end LogStream
